import Mathlib

/-!
A shallow embedding of the basicsudoku package (asweigart/basicsudoku):
the `SudokuBoard` grid class of src/basicsudoku/__init__.py and the
`BasicSolver` constraint-propagation + backtracking solver of
src/basicsudoku/solvers.py, together with proofs of the specification
claims about them.

Encoding conventions:
* a symbol is a `Nat`: `0` encodes the empty space `'.'`, and `1`..`9`
  encode the digit symbols `'1'`..`'9'` (the Python class guarantees every
  stored cell is one of these).  The string-level claims about the
  `SudokuBoard` text interface are modelled separately with `Char` cells.
* a space is a pair `(x, y) : Fin 9 × Fin 9`, exactly the coordinates used
  by the source (`x` = column, `y` = row).
* `board_candidates` (a 9×9 Python list-of-lists of sets, indexed
  `board_candidates[x][y]`) is a flat list of 81 `Finset Nat`, cell `(x,y)`
  stored at index `x*9 + y`.
* Python's recursive propagation (`set_symbol` / `remove_from_peers` /
  `remove_candidate` calling each other depth-first) is embedded as a
  single function `goF` over an explicit stack of pending removal jobs
  `(symbol, space)`; pushing the peer jobs of a freshly collapsed cell on
  the front of the stack reproduces the source's depth-first execution
  order exactly.  `goF` is structurally recursive on a fuel argument; the
  fuel bound `goFuel` is proved sufficient (`goF_no_fuelOut`), so the
  `.fuelOut` result never occurs and the three-valued result
  (`ok` / `contra` / `fuelOut`) faithfully models
  (normal return / SudokuBoardException / -).
* the recursion of `solve_through_search` is likewise embedded with fuel
  82; the search recurses only after strictly decreasing the number of
  undetermined cells (of which there are at most 81), which is the
  termination argument recorded by the spec and proved below.
-/

namespace BasicSudoku

/-- A symbol: 0 is the empty space, 1..9 are the digit symbols. -/
abbrev Sym := Nat

/-- A space on the board, as an (x, y) = (column, row) coordinate pair. -/
abbrev Pos := Fin 9 × Fin 9

/-- The symbols stored on a SudokuBoard (0 = EMPTY_SPACE). -/
abbrev Board := Pos → Sym

/-- board_candidates: the 81 candidate sets, cell (x,y) at index x*9+y
(mirroring the Python indexing board_candidates[x][y]). -/
abbrev CandState := List (Finset Sym)

/-- Flat index of space (x,y) inside a CandState list. -/
def ixOf (p : Pos) : Nat := (p.1 : Nat) * 9 + (p.2 : Nat)

/-- Read the candidate set of one space (board_candidates[x][y]). -/
def getC (c : CandState) (p : Pos) : Finset Sym := c.getD (ixOf p) ∅

/-- Write the candidate set of one space (board_candidates[x][y] = v). -/
def setC (c : CandState) (p : Pos) (v : Finset Sym) : CandState :=
  c.set (ixOf p) v

/-- Space for the linear index i used by the source: x = i % 9, y = i // 9
(the extra % 9 on the second component only makes the function total; for
i < 81 it is the identity). -/
def posOfIdx (i : Nat) : Pos := (⟨i % 9, by omega⟩, ⟨i / 9 % 9, by omega⟩)

/-- Linear index of a space in the row-major symbol strings: i = y*9 + x. -/
def idxOfPos (p : Pos) : Nat := (p.2 : Nat) * 9 + (p.1 : Nat)

/-- The one symbol of a singleton candidate set
(Python: tuple(board_candidates[x][y])[0], only used when the set has
exactly one element, where summing the set returns that element). -/
def theSym (s : Finset Sym) : Sym := s.sum id

/-- The row peers of a space, in the order the source's loop visits them
(remove_from_peers: for x in range(9): if x != candidate_x). -/
def rowPeers (p : Pos) : List Pos :=
  ((List.finRange 9).filter (fun x => x ≠ p.1)).map (fun x => (x, p.2))

/-- The column peers of a space
(remove_from_peers: for y in range(9): if y != candidate_y). -/
def colPeers (p : Pos) : List Pos :=
  ((List.finRange 9).filter (fun y => y ≠ p.2)).map (fun y => (p.1, y))

/-- Coordinate d inside the 3-wide band of coordinate a
(start_x = (candidate_x // 3) * 3 and then start_x + d). -/
def thirdCell (a : Fin 9) (d : Fin 3) : Fin 9 :=
  ⟨(a : Nat) / 3 * 3 + (d : Nat), by omega⟩

/-- The box peers of a space, in source order (y of the box outer, x inner),
keeping only the cells with x != candidate_x and y != candidate_y, exactly
as the source's condition does. -/
def boxPeers (p : Pos) : List Pos :=
  ((List.finRange 3).flatMap (fun dy => (List.finRange 3).map
      (fun dx => ((thirdCell p.1 dx, thirdCell p.2 dy) : Pos)))).filter
    (fun q => q.1 ≠ p.1 ∧ q.2 ≠ p.2)

/-- All peer spaces a remove_from_peers call touches, in source order:
row loop, then column loop, then box loop. -/
def peersList (p : Pos) : List Pos := rowPeers p ++ colPeers p ++ boxPeers p

/-- Two distinct spaces sharing a row, a column, or a 3x3 box. -/
def Peer (p q : Pos) : Prop :=
  p ≠ q ∧ (p.2 = q.2 ∨ p.1 = q.1 ∨
    ((p.1 : Nat) / 3 = (q.1 : Nat) / 3 ∧ (p.2 : Nat) / 3 = (q.2 : Nat) / 3))

/-- Sum of the sizes of all candidate sets (only used for the fuel bound). -/
def totalCard (c : CandState) : Nat := (c.map Finset.card).sum

/-- Result of a propagation pass: normal return, the
SudokuBoardException raised by remove_candidate on an emptied set, or
fuel exhaustion (proved unreachable below). -/
inductive PropRes where
  | ok (c : CandState)
  | contra
  | fuelOut
  deriving DecidableEq

/-- The recursive propagation of remove_candidate / set_symbol /
remove_from_peers, as one loop over a stack of pending remove jobs
(symbol s still to be removed from space q).  Processing a job whose
removal leaves exactly one candidate at q pushes remove jobs for all peers
of q carrying the remaining symbol (this is the recursive set_symbol call;
its assignment of the singleton to q itself is a no-op there since the set
already is that singleton).  A removal that empties a set raises
(contra).  Fuel is structural recursion fuel only. -/
def goF : Nat → List (Sym × Pos) → CandState → PropRes
  | 0, _, _ => .fuelOut
  | _ + 1, [], c => .ok c
  | fuel + 1, (s, q) :: jobs, c =>
    if s ∈ getC c q then
      if ((getC c q).erase s).card = 1 then
        goF fuel
          ((peersList q).map (fun r => (theSym ((getC c q).erase s), r)) ++ jobs)
          (setC c q ((getC c q).erase s))
      else if ((getC c q).erase s).card = 0 then .contra
      else goF fuel jobs (setC c q ((getC c q).erase s))
    else goF fuel jobs c

/-- Sufficient fuel for goF: every processed job either shrinks the total
candidate mass or shortens the stack (pushing at most 27 new jobs after a
shrink). -/
def goFuel (jobs : List (Sym × Pos)) (c : CandState) : Nat :=
  28 * totalCard c + jobs.length + 1

/-- Run the propagation stack to completion. -/
def go (jobs : List (Sym × Pos)) (c : CandState) : PropRes :=
  goF (goFuel jobs c) jobs c

/-- set_symbol: collapse the candidate set of space p to the single symbol
s, then remove s from every peer of p (with the recursive cascade). -/
def setSymbol (s : Sym) (p : Pos) (c : CandState) : PropRes :=
  go ((peersList p).map (fun r => (s, r))) (setC c p {s})

/-- The 81 spaces in the order remove_givens_from_board_candidates of
src/basicsudoku/solvers.py visits them (for x in range(9): for y in
range(9)). -/
def givensList : List Pos :=
  (List.finRange 9).flatMap (fun x => (List.finRange 9).map (fun y => ((x, y) : Pos)))

/-- The initial candidate state: every space can hold any of 1..9. -/
def initCands : CandState :=
  List.replicate 81 ({1, 2, 3, 4, 5, 6, 7, 8, 9} : Finset Sym)

/-- remove_givens_from_board_candidates, folded over a list of spaces:
every non-empty board symbol is set_symbol-ed in turn; the first raised
exception aborts the pass. -/
def removeGivensAux (b : Board) : List Pos → CandState → PropRes
  | [], c => .ok c
  | p :: ps, c =>
    if b p ≠ 0 then
      match setSymbol (b p) p c with
      | .ok c2 => removeGivensAux b ps c2
      | r => r
    else removeGivensAux b ps c

/-- Phase 1 of solve: build the initial candidates and remove the givens. -/
def removeGivens (b : Board) : PropRes := removeGivensAux b givensList initCands

/-- A row of a board, left to right (get_row). -/
def getRow {α : Type} (b : Pos → α) (y : Fin 9) : List α :=
  (List.finRange 9).map (fun x => b (x, y))

/-- A column of a board, top to bottom (get_column). -/
def getColumn {α : Type} (b : Pos → α) (x : Fin 9) : List α :=
  (List.finRange 9).map (fun y => b (x, y))

/-- Coordinate d inside box-band bx: start = box_x * 3, then start + d. -/
def boxCell (bx : Fin 3) (d : Fin 3) : Fin 9 := ⟨(bx : Nat) * 3 + (d : Nat), by omega⟩

/-- The spaces of box (bx, bt), in get_box order (y outer, x inner). -/
def boxPosList (bx bt : Fin 3) : List Pos :=
  (List.finRange 3).flatMap (fun dy => (List.finRange 3).map
    (fun dx => ((boxCell bx dx, boxCell bt dy) : Pos)))

/-- A box of a board (get_box). -/
def getBox {α : Type} (b : Pos → α) (bx bt : Fin 3) : List α :=
  (boxPosList bx bt).map b

/-- is_valid_unit for a unit read off a board: scan the 9 symbols with a
seen-set, and report a repeated non-empty symbol (e is the empty symbol;
the source also inserts the empty symbol into the seen-set, harmlessly,
which is mirrored here).  The length/symbol validation of the source can
only raise for units not read off a board and is not modelled. -/
def validUnit {α : Type} [DecidableEq α] (e : α) : List α → Finset α → Bool
  | [], _ => true
  | s :: rest, seen =>
    if s ≠ e ∧ s ∈ seen then false else validUnit e rest (insert s seen)

/-- is_valid_board: all columns, then all rows, then all boxes (top outer,
left inner) pass the duplicate check. -/
def isValidBoard {α : Type} [DecidableEq α] (e : α) (b : Pos → α) : Bool :=
  ((List.finRange 9).all fun x => validUnit e (getColumn b x) ∅) &&
  ((List.finRange 9).all fun y => validUnit e (getRow b y) ∅) &&
  ((List.finRange 3).all fun t => (List.finRange 3).all fun l =>
    validUnit e (getBox b l t) ∅)

/-- is_full: no space holds the empty symbol. -/
def isFull {α : Type} [DecidableEq α] (e : α) (b : Pos → α) : Bool :=
  (List.finRange 9).all fun x => (List.finRange 9).all fun y => b (x, y) ≠ e

/-- is_solved: is_full() and is_valid_board(). -/
def isSolvedBoard (b : Board) : Bool := isFull 0 b && isValidBoard 0 b

/-- Candidate-set size of the space with linear index i
(len(board_candidates[i % 9][i // 9])). -/
def cardAt (c : CandState) (i : Nat) : Nat := (getC c (posOfIdx i)).card

/-- Stable insertion of x into a sorted list: x goes before the first
element it compares strictly below, hence after all earlier elements with
an equal key. -/
def insertBy (le : Nat → Nat → Bool) (x : Nat) : List Nat → List Nat
  | [] => [x]
  | y :: ys => if le x y then x :: y :: ys else y :: insertBy le x ys

/-- A stable sort (insertion sort), modelling Python's stable list.sort;
only the head of the sorted order is ever used by the solver. -/
def sortBy (le : Nat → Nat → Bool) : List Nat → List Nat
  | [] => []
  | x :: xs => insertBy le x (sortBy le xs)

/-- order_of_spaces_to_check: the linear indices of the unsolved spaces
(len != 1), stably sorted by ascending candidate-set size (Python's
list.sort with key=len is a stable ascending sort). -/
def orderOfSpaces (c : CandState) : List Nat :=
  sortBy (fun i j => cardAt c i ≤ cardAt c j)
    ((List.range 81).filter (fun i => cardAt c i ≠ 1))

/-- The space the search branches on: the first entry of the sorted order,
none when every space is solved. -/
def chooseIdx (c : CandState) : Option Nat := (orderOfSpaces c).head?

/-- make_board_from_candidates followed by reading .symbols: the row-major
list of 81 symbols, a singleton set contributing its symbol and any other
set the empty symbol.  (The source's assert for empty sets cannot fire on
the propagation-produced states this is applied to.) -/
def mkSymbols (c : CandState) : List Sym :=
  (List.range 81).map
    (fun i => if cardAt c i = 1 then theSym (getC c (posOfIdx i)) else 0)

/-- The board described by a row-major symbols list (the .symbols setter
writes entry i to space (i % 9, i // 9)). -/
def boardOfSymbols (l : List Sym) : Board := fun p => l.getD (idxOfPos p) 0

/-- The candidates of the branching space as the list the source's
for-candidate loop runs over.  The Python source iterates a hash set here
(unspecified order); the embedding fixes ascending symbol order, which is
the order the spec prescribes.  This ordering is a modelling choice, not a
property of the source (see claim C2). -/
def candList (c : CandState) (p : Pos) : List Sym :=
  (getC c p).sort (· ≤ ·)

/-- One level of the candidate loop of solve_through_search, with the
recursive call abstracted as rec: try each candidate of space p in turn;
a propagation contradiction or an invalid materialized board abandons the
candidate; a full (and valid) board is returned; otherwise recurse and
fall through to the next candidate on failure. -/
def tryCandsF (rec : CandState → Option (List Sym)) :
    List Sym → Pos → CandState → Option (List Sym)
  | [], _, _ => none
  | s :: rest, p, c =>
    match setSymbol s p c with
    | .ok c2 =>
      if isValidBoard 0 (boardOfSymbols (mkSymbols c2)) = false then
        tryCandsF rec rest p c
      else if isFull 0 (boardOfSymbols (mkSymbols c2)) then some (mkSymbols c2)
      else
        match rec c2 with
        | some r => some r
        | none => tryCandsF rec rest p c
    | .contra => tryCandsF rec rest p c
    | .fuelOut => tryCandsF rec rest p c

/-- solve_through_search with recursion fuel: when every space is solved
return the materialized symbols (this is the return without a validity
check), otherwise branch on the chosen space. -/
def solveSearchF : Nat → CandState → Option (List Sym)
  | 0, _ => none
  | fuel + 1, c =>
    match chooseIdx c with
    | none => some (mkSymbols c)
    | some i => tryCandsF (solveSearchF fuel) (candList c (posOfIdx i)) (posOfIdx i) c

/-- solve_through_search.  Each recursive call strictly decreases the
number of spaces with more than one candidate (proved below), which is at
most 81, so fuel 82 is never exhausted on the states the solver reaches. -/
def solveSearch (c : CandState) : Option (List Sym) := solveSearchF 82 c

/-- Outcome of BasicSolver.solve: True, False, or an escaped
SudokuBoardException. -/
inductive SolveOutcome where
  | success
  | failure
  | raised
  deriving DecidableEq

/-- BasicSolver.solve: propagate the givens (an exception here escapes to
the caller), search, and on success write the solution symbols to the
board (self.board.symbols = solution_symbols; the solution is full and
valid, so the setter's strict-mode check cannot fire).  On failure the
board is left untouched. -/
def solveRun (b : Board) : Board × SolveOutcome :=
  match removeGivens b with
  | .ok c =>
    match solveSearch c with
    | some syms => (boardOfSymbols syms, .success)
    | none => (b, .failure)
  | .contra => (b, .raised)
  | .fuelOut => (b, .raised)

/-- The state of an ok result (junk otherwise); used to name concrete
propagation results in witness statements. -/
def okState : PropRes → CandState
  | .ok c => c
  | _ => []

/-- A returned solution is a full and valid assignment. -/
def SolvedSyms (syms : List Sym) : Prop :=
  isValidBoard 0 (boardOfSymbols syms) = true ∧ isFull 0 (boardOfSymbols syms) = true

/-- Well-formed candidate state: one set per space. -/
def WF (c : CandState) : Prop := c.length = 81

/-- Every candidate set is non-empty. -/
def AllNonempty (c : CandState) : Prop := ∀ p, (getC c p).Nonempty

/-- No candidate set contains the empty symbol. -/
def ZeroFree (c : CandState) : Prop := ∀ p, 0 ∉ getC c p

/-- The symbol of any singleton set is absent from all its peers (the
quiescent propagation invariant). -/
def NoPeerSingles (c : CandState) : Prop :=
  ∀ p q s, Peer p q → getC c p = {s} → s ∉ getC c q

/-- Every violation of NoPeerSingles is covered by a pending remove job at
its target or at its (singleton) source: the in-flight propagation
invariant of the job stack. -/
def JobsCover (jobs : List (Sym × Pos)) (c : CandState) : Prop :=
  ∀ p q s, Peer p q → getC c p = {s} → s ∈ getC c q →
    (s, q) ∈ jobs ∨ (s, p) ∈ jobs

/-- The invariants every candidate state reached by the solver satisfies. -/
def GoodState (c : CandState) : Prop :=
  WF c ∧ AllNonempty c ∧ ZeroFree c ∧ NoPeerSingles c

/-- Number of spaces whose candidate set is not a singleton. -/
def undetCount (c : CandState) : Nat :=
  (Finset.univ.filter (fun p : Pos => (getC c p).card ≠ 1)).card

/-- Number of spaces with more than one candidate. -/
def multiCount (c : CandState) : Nat :=
  (Finset.univ.filter (fun p : Pos => 1 < (getC c p).card)).card

/-- The full symbol set 1..9. -/
def nineSet : Finset Sym := {1, 2, 3, 4, 5, 6, 7, 8, 9}

/-- The character-level model of the SudokuBoard class, for the claims
about its string interface: the 81 stored one-character strings and the
strict flag. -/
structure SBoard where
  cells : Pos → Char
  strict : Bool

/-- is_valid_symbol on a single character: one of . 1 2 3 4 5 6 7 8 9. -/
def validSymbolChar (ch : Char) : Bool :=
  decide (ch ∈ ['.', '1', '2', '3', '4', '5', '6', '7', '8', '9'])

/-- clear_board: every space set to EMPTY_SPACE. -/
def clearCells : Pos → Char := fun _ => '.'

/-- The net effect of the symbols setter's write loop
(for i, symbol in enumerate(value): board[i % 9][i // 9] = symbol):
space p receives character idxOfPos p of the value when present. -/
def writeSymbols (c0 : Pos → Char) (v : List Char) : Pos → Char :=
  fun p => if idxOfPos p < v.length then v.getD (idxOfPos p) '.' else c0 p

/-- The symbols getter: the 81 characters in row-major order (y outer,
x inner), listed by linear index. -/
def symbolsGet (b : Pos → Char) : List Char :=
  (List.range 81).map (fun i => b (posOfIdx i))

/-- The symbols setter, with its raised exceptions as a Bool flag and the
board state after the call (length check, per-symbol check, write all 81
spaces, then in strict mode clear the whole board and raise if the result
is invalid). -/
def symbolsSetRun (bd : SBoard) (v : List Char) : SBoard × Bool :=
  if v.length ≠ 81 then (bd, true)
  else if ¬ (v.all validSymbolChar) then (bd, true)
  else
    if bd.strict && !(isValidBoard '.' (writeSymbols bd.cells v)) then
      ({ cells := clearCells, strict := bd.strict }, true)
    else ({ cells := writeSymbols bd.cells v, strict := bd.strict }, false)

/-- SudokuBoard(symbols=v, strict=st): clear_board, then the symbols
setter. -/
def mkSudokuBoard (v : List Char) (st : Bool) : SBoard × Bool :=
  symbolsSetRun { cells := clearCells, strict := st } v

/-- The space named by an in-range (x, y) pair of plain naturals (the %
only makes the function total). -/
def toPos (x y : Nat) : Pos :=
  (⟨x % 9, Nat.mod_lt x (by omega)⟩, ⟨y % 9, Nat.mod_lt y (by omega)⟩)

/-- SudokuBoard.__setitem__ with an (x, y) key: symbol check, bounds
checks, write the space, and in strict mode restore the old value and
raise if the board became invalid. -/
def setItemRun (bd : SBoard) (x y : Nat) (v : Char) : SBoard × Bool :=
  if validSymbolChar v = false then (bd, true)
  else if 9 ≤ x then (bd, true)
  else if 9 ≤ y then (bd, true)
  else
    let oldv := bd.cells (toPos x y)
    let c2 := Function.update bd.cells (toPos x y) v
    if bd.strict && !(isValidBoard '.' c2) then
      ({ cells := Function.update c2 (toPos x y) oldv, strict := bd.strict }, true)
    else ({ cells := c2, strict := bd.strict }, false)

/-- The row-major symbols of the solved board used as a concrete witness
(the solved concrete scenario grid of the spec). -/
def fullList : List Sym :=
  [5,3,4,6,7,8,9,1,2,
   6,7,2,1,9,5,3,4,8,
   1,9,8,3,4,2,5,6,7,
   8,5,9,7,6,1,4,2,3,
   4,2,6,8,5,3,7,9,1,
   7,1,3,9,2,4,8,5,6,
   9,6,1,5,3,7,2,8,4,
   2,8,7,4,1,9,6,3,5,
   3,4,5,2,8,6,1,7,9]

/-- A completely filled valid board (witness input). -/
def bFull : Board := boardOfSymbols fullList

/-- A board with three non-conflicting givens (witness input). -/
def bThree : Board := fun p =>
  if p = ((0 : Fin 9), (0 : Fin 9)) then 1
  else if p = ((4 : Fin 9), (4 : Fin 9)) then 2
  else if p = ((8 : Fin 9), (8 : Fin 9)) then 3
  else 0

/-- A board with the same symbol twice in row 0 (witness input for the
contradictory-givens claim). -/
def bDup : Board := boardOfSymbols (5 :: 5 :: List.replicate 79 0)

/-- A strict character board carrying the single symbol 1 at (0, 0)
(witness input). -/
def sbOne : SBoard :=
  { cells := Function.update clearCells ((0 : Fin 9), (0 : Fin 9)) '1',
    strict := true }

/-- An empty strict character board (witness input). -/
def sbEmpty : SBoard := { cells := clearCells, strict := true }

/-- A well-formed symbols string with a duplicated 1 in row 0 (witness
input). -/
def vDup : List Char := '1' :: '1' :: List.replicate 79 '.'

/-! ### Basic facts about indices and the candidate store -/

theorem ixOf_lt (p : Pos) : ixOf p < 81 := by
  obtain ⟨⟨x, hx⟩, ⟨y, hy⟩⟩ := p
  simp only [ixOf]
  omega

theorem ixOf_inj {p q : Pos} (h : ixOf p = ixOf q) : p = q := by
  obtain ⟨⟨x1, hx1⟩, ⟨y1, hy1⟩⟩ := p
  obtain ⟨⟨x2, hx2⟩, ⟨y2, hy2⟩⟩ := q
  simp only [ixOf] at h
  simp only [Prod.mk.injEq, Fin.mk.injEq]
  omega

theorem idxOfPos_lt (p : Pos) : idxOfPos p < 81 := by
  obtain ⟨⟨x, hx⟩, ⟨y, hy⟩⟩ := p
  simp only [idxOfPos]
  omega

theorem posOfIdx_idxOfPos (p : Pos) : posOfIdx (idxOfPos p) = p := by
  obtain ⟨⟨x, hx⟩, ⟨y, hy⟩⟩ := p
  simp only [posOfIdx, idxOfPos, Prod.mk.injEq, Fin.mk.injEq]
  omega

theorem idxOfPos_posOfIdx {i : Nat} (h : i < 81) : idxOfPos (posOfIdx i) = i := by
  simp only [posOfIdx, idxOfPos]
  omega

theorem WF_setC {c : CandState} (hWF : WF c) (p : Pos) (v : Finset Sym) :
    WF (setC c p v) := by
  have h81 : c.length = 81 := hWF
  show (setC c p v).length = 81
  simp [setC, h81]

theorem getC_setC_self {c : CandState} (hWF : WF c) (p : Pos) (v : Finset Sym) :
    getC (setC c p v) p = v := by
  have h81 : c.length = 81 := hWF
  simp [getC, setC, List.getD_eq_getElem?_getD, List.getElem?_set, h81, ixOf_lt p]

theorem getC_setC_ne {c : CandState} {p q : Pos} (h : p ≠ q) (v : Finset Sym) :
    getC (setC c p v) q = getC c q := by
  have hne : ixOf p ≠ ixOf q := fun he => h (ixOf_inj he)
  simp [getC, setC, List.getD_eq_getElem?_getD, List.getElem?_set, hne]

theorem setC_getC_self {c : CandState} (hWF : WF c) (p : Pos) :
    setC c p (getC c p) = c := by
  have h81 : c.length = 81 := hWF
  have hlt : ixOf p < c.length := by rw [h81]; exact ixOf_lt p
  apply List.ext_getElem?
  intro j
  rw [setC, List.getElem?_set]
  by_cases hij : ixOf p = j
  · subst hij
    rw [if_pos rfl, if_pos hlt, getC, List.getD_eq_getElem?_getD,
      List.getElem?_eq_getElem hlt]
    rfl
  · rw [if_neg hij]

theorem WF_initCands : WF initCands := by
  show initCands.length = 81
  simp [initCands]

theorem getC_initCands (p : Pos) : getC initCands p = nineSet := by
  rw [getC, initCands, List.getD_eq_getElem?_getD, List.getElem?_replicate]
  rw [if_pos (ixOf_lt p)]
  rfl

/-! ### The peer relation and the peer list -/

theorem peer_symm {p q : Pos} (h : Peer p q) : Peer q p := by
  obtain ⟨hne, hcase⟩ := h
  refine ⟨hne.symm, ?_⟩
  rcases hcase with h | h | h
  · exact Or.inl h.symm
  · exact Or.inr (Or.inl h.symm)
  · exact Or.inr (Or.inr ⟨h.1.symm, h.2.symm⟩)

theorem mem_rowPeers {p q : Pos} : q ∈ rowPeers p ↔ (q.1 ≠ p.1 ∧ q.2 = p.2) := by
  simp only [rowPeers, List.mem_map, List.mem_filter, List.mem_finRange, true_and,
    decide_eq_true_eq]
  constructor
  · rintro ⟨x, hx, rfl⟩
    exact ⟨hx, rfl⟩
  · rintro ⟨h1, h2⟩
    refine ⟨q.1, h1, ?_⟩
    rw [← h2]

theorem mem_colPeers {p q : Pos} : q ∈ colPeers p ↔ (q.2 ≠ p.2 ∧ q.1 = p.1) := by
  simp only [colPeers, List.mem_map, List.mem_filter, List.mem_finRange, true_and,
    decide_eq_true_eq]
  constructor
  · rintro ⟨y, hy, rfl⟩
    exact ⟨hy, rfl⟩
  · rintro ⟨h1, h2⟩
    refine ⟨q.2, h1, ?_⟩
    rw [← h2]

theorem mem_boxPeers {p q : Pos} :
    q ∈ boxPeers p ↔ (q.1 ≠ p.1 ∧ q.2 ≠ p.2 ∧
      (q.1 : Nat) / 3 = (p.1 : Nat) / 3 ∧ (q.2 : Nat) / 3 = (p.2 : Nat) / 3) := by
  simp only [boxPeers, List.mem_filter, List.mem_flatMap, List.mem_map,
    List.mem_finRange, true_and, decide_eq_true_eq]
  constructor
  · rintro ⟨⟨dy, dx, rfl⟩, h1, h2⟩
    refine ⟨h1, h2, ?_, ?_⟩ <;> · simp only [thirdCell]; omega
  · rintro ⟨h1, h2, h3, h4⟩
    refine ⟨⟨⟨(q.2 : Nat) % 3, by omega⟩, ⟨(q.1 : Nat) % 3, by omega⟩, ?_⟩, h1, h2⟩
    obtain ⟨⟨qx, hqx⟩, ⟨qy, hqy⟩⟩ := q
    simp only [thirdCell, Prod.mk.injEq, Fin.mk.injEq] at h3 h4 ⊢
    omega

theorem mem_peersList_iff {p q : Pos} : q ∈ peersList p ↔ Peer p q := by
  simp only [peersList, List.mem_append, mem_rowPeers, mem_colPeers, mem_boxPeers, Peer,
    Prod.ext_iff, ne_eq]
  constructor
  · rintro ((⟨h1, h2⟩ | ⟨h1, h2⟩) | ⟨h1, h2, h3, h4⟩)
    · exact ⟨fun he => h1 (he.1.symm), Or.inl h2.symm⟩
    · exact ⟨fun he => h1 (he.2.symm), Or.inr (Or.inl h2.symm)⟩
    · exact ⟨fun he => h1 (he.1.symm), Or.inr (Or.inr ⟨h3.symm, h4.symm⟩)⟩
  · rintro ⟨hne, hrow | hcol | hbox⟩
    · left; left
      refine ⟨fun he => hne ⟨he.symm, hrow⟩, hrow.symm⟩
    · by_cases hy : q.2 = p.2
      · left; left
        refine ⟨fun he => hne ⟨he.symm, hy.symm⟩, hy⟩
      · left; right
        exact ⟨hy, hcol.symm⟩
    · by_cases hrow2 : q.2 = p.2
      · left; left
        refine ⟨fun he => hne ⟨he.symm, hrow2.symm⟩, hrow2⟩
      · by_cases hcol2 : q.1 = p.1
        · left; right
          exact ⟨hrow2, hcol2⟩
        · right
          exact ⟨hcol2, hrow2, hbox.1.symm, hbox.2.symm⟩

theorem mem_peersList_of_peer {p q : Pos} (h : Peer p q) : q ∈ peersList p :=
  mem_peersList_iff.mpr h

theorem peer_of_mem_peersList {p q : Pos} (h : q ∈ peersList p) : Peer p q :=
  mem_peersList_iff.mp h

theorem peersList_length_le (p : Pos) : (peersList p).length ≤ 27 := by
  have h1 : (rowPeers p).length ≤ 9 := by
    rw [rowPeers, List.length_map]
    exact le_trans (List.length_filter_le _ _) (by simp)
  have h2 : (colPeers p).length ≤ 9 := by
    rw [colPeers, List.length_map]
    exact le_trans (List.length_filter_le _ _) (by simp)
  have h3 : (boxPeers p).length ≤ 9 := by
    rw [boxPeers]
    refine le_trans (List.length_filter_le _ _) ?_
    simp only [List.length_flatMap, Function.comp_def, List.length_map,
      List.length_finRange]
    decide
  rw [peersList, List.length_append, List.length_append]
  omega

/-! ### Singleton candidate sets -/

theorem eq_singleton_theSym {s : Finset Sym} (h : s.card = 1) : s = {theSym s} := by
  obtain ⟨a, rfl⟩ := Finset.card_eq_one.mp h
  simp [theSym]

theorem eq_singleton_of_subset {s : Finset Sym} {a : Sym} (hsub : s ⊆ {a})
    (hne : s.Nonempty) : s = {a} := by
  rcases Finset.subset_singleton_iff.mp hsub with he | he
  · rw [he] at hne
    exact absurd hne (by simp)
  · exact he

/-! ### Structural facts about the propagation loop goF -/

theorem goF_wf : ∀ {fuel : Nat} {jobs : List (Sym × Pos)} {c c' : CandState},
    goF fuel jobs c = .ok c' → WF c → WF c' := by
  intro fuel
  induction fuel with
  | zero => intro jobs c c' h; simp [goF] at h
  | succ fuel ih =>
    intro jobs c c' h hWF
    match jobs with
    | [] =>
      simp only [goF, PropRes.ok.injEq] at h
      exact h ▸ hWF
    | (s, q) :: jobs =>
      rw [goF] at h
      by_cases hs : s ∈ getC c q
      · rw [if_pos hs] at h
        by_cases h1 : ((getC c q).erase s).card = 1
        · rw [if_pos h1] at h
          exact ih h (WF_setC hWF _ _)
        · rw [if_neg h1] at h
          by_cases h0 : ((getC c q).erase s).card = 0
          · rw [if_pos h0] at h
            exact absurd h (by simp)
          · rw [if_neg h0] at h
            exact ih h (WF_setC hWF _ _)
      · rw [if_neg hs] at h
        exact ih h hWF

theorem goF_subset : ∀ {fuel : Nat} {jobs : List (Sym × Pos)} {c c' : CandState},
    goF fuel jobs c = .ok c' → WF c → ∀ p, getC c' p ⊆ getC c p := by
  intro fuel
  induction fuel with
  | zero => intro jobs c c' h; simp [goF] at h
  | succ fuel ih =>
    intro jobs c c' h hWF
    match jobs with
    | [] =>
      simp only [goF, PropRes.ok.injEq] at h
      subst h
      intro p
      exact Finset.Subset.refl _
    | (s, q) :: jobs =>
      rw [goF] at h
      by_cases hs : s ∈ getC c q
      · rw [if_pos hs] at h
        have hstep : ∀ p, getC (setC c q ((getC c q).erase s)) p ⊆ getC c p := by
          intro p
          by_cases hpq : q = p
          · subst hpq
            rw [getC_setC_self hWF]
            exact Finset.erase_subset _ _
          · rw [getC_setC_ne hpq]
        by_cases h1 : ((getC c q).erase s).card = 1
        · rw [if_pos h1] at h
          intro p
          exact (ih h (WF_setC hWF _ _) p).trans (hstep p)
        · rw [if_neg h1] at h
          by_cases h0 : ((getC c q).erase s).card = 0
          · rw [if_pos h0] at h
            exact absurd h (by simp)
          · rw [if_neg h0] at h
            intro p
            exact (ih h (WF_setC hWF _ _) p).trans (hstep p)
      · rw [if_neg hs] at h
        exact ih h hWF

theorem goF_nonempty : ∀ {fuel : Nat} {jobs : List (Sym × Pos)} {c c' : CandState},
    goF fuel jobs c = .ok c' → WF c →
    ∀ p, (getC c p).Nonempty → (getC c' p).Nonempty := by
  intro fuel
  induction fuel with
  | zero => intro jobs c c' h; simp [goF] at h
  | succ fuel ih =>
    intro jobs c c' h hWF
    match jobs with
    | [] =>
      simp only [goF, PropRes.ok.injEq] at h
      subst h
      exact fun p hp => hp
    | (s, q) :: jobs =>
      rw [goF] at h
      by_cases hs : s ∈ getC c q
      · rw [if_pos hs] at h
        by_cases h1 : ((getC c q).erase s).card = 1
        · rw [if_pos h1] at h
          intro p hp
          refine ih h (WF_setC hWF _ _) p ?_
          by_cases hpq : q = p
          · subst hpq
            rw [getC_setC_self hWF]
            exact Finset.card_pos.mp (by omega)
          · rwa [getC_setC_ne hpq]
        · rw [if_neg h1] at h
          by_cases h0 : ((getC c q).erase s).card = 0
          · rw [if_pos h0] at h
            exact absurd h (by simp)
          · rw [if_neg h0] at h
            intro p hp
            refine ih h (WF_setC hWF _ _) p ?_
            by_cases hpq : q = p
            · subst hpq
              rw [getC_setC_self hWF]
              exact Finset.card_pos.mp (by omega)
            · rwa [getC_setC_ne hpq]
      · rw [if_neg hs] at h
        exact ih h hWF

theorem goF_skip_all : ∀ {fuel : Nat} {jobs : List (Sym × Pos)} {c : CandState},
    jobs.length < fuel → (∀ s q, (s, q) ∈ jobs → s ∉ getC c q) →
    goF fuel jobs c = .ok c := by
  intro fuel
  induction fuel with
  | zero => intro jobs c h; omega
  | succ fuel ih =>
    intro jobs c hlen hskip
    match jobs with
    | [] => rfl
    | (s, q) :: jobs =>
      rw [goF, if_neg (hskip s q (List.mem_cons_self _ _))]
      refine ih ?_ ?_
      · simpa using Nat.lt_of_succ_lt_succ (by simpa using hlen)
      · intro s' q' hmem
        exact hskip s' q' (List.mem_cons_of_mem _ hmem)

/-! ### The fuel bound is sufficient -/

theorem sum_map_set_add (f : Finset Sym → Nat) :
    ∀ (l : List (Finset Sym)) (i : Nat) (v : Finset Sym), i < l.length →
      ((l.set i v).map f).sum + f (l.getD i ∅) = (l.map f).sum + f v := by
  intro l
  induction l with
  | nil => intro i v h; simp at h
  | cons a l ih =>
    intro i v h
    cases i with
    | zero => simp [List.set]; omega
    | succ i =>
      have hi : i < l.length := by simpa using h
      have := ih i v hi
      simp only [List.set, List.map_cons, List.sum_cons, List.getD_cons_succ]
      omega

theorem totalCard_setC {c : CandState} (hWF : WF c) (p : Pos) (v : Finset Sym) :
    totalCard (setC c p v) + (getC c p).card = totalCard c + v.card := by
  have h81 : c.length = 81 := hWF
  have := sum_map_set_add Finset.card c (ixOf p) v (by rw [h81]; exact ixOf_lt p)
  simpa [totalCard, setC, getC] using this

theorem goF_no_fuelOut : ∀ {fuel : Nat} {jobs : List (Sym × Pos)} {c : CandState},
    WF c → 28 * totalCard c + jobs.length < fuel → goF fuel jobs c ≠ .fuelOut := by
  intro fuel
  induction fuel with
  | zero => intro jobs c _ h; omega
  | succ fuel ih =>
    intro jobs c hWF hlt
    match jobs with
    | [] => simp [goF]
    | (s, q) :: jobs =>
      rw [goF]
      have hcardpos : 0 < (getC c q).card → True := fun _ => trivial
      by_cases hs : s ∈ getC c q
      · rw [if_pos hs]
        have hpos : 0 < (getC c q).card := Finset.card_pos.mpr ⟨s, hs⟩
        have herase : ((getC c q).erase s).card = (getC c q).card - 1 :=
          Finset.card_erase_of_mem hs
        have htc := totalCard_setC hWF q ((getC c q).erase s)
        have htcc : totalCard c ≥ (getC c q).card := by
          have h81 : c.length = 81 := hWF
          have hlt2 : ixOf q < c.length := by rw [h81]; exact ixOf_lt q
          have : (getC c q).card ∈ c.map Finset.card := by
            rw [getC, List.getD_eq_getElem?_getD, List.getElem?_eq_getElem hlt2]
            exact List.mem_map_of_mem _ (List.getElem_mem _)
          exact List.single_le_sum (fun _ _ => Nat.zero_le _) _ this
        by_cases h1 : ((getC c q).erase s).card = 1
        · rw [if_pos h1]
          refine ih (WF_setC hWF _ _) ?_
          have hlenmap :
              ((peersList q).map
                (fun r => (theSym ((getC c q).erase s), r))).length ≤ 27 := by
            rw [List.length_map]
            exact peersList_length_le q
          rw [List.length_append]
          simp only [List.length_cons] at hlt
          omega
        · rw [if_neg h1]
          by_cases h0 : ((getC c q).erase s).card = 0
          · rw [if_pos h0]
            simp
          · rw [if_neg h0]
            refine ih (WF_setC hWF _ _) ?_
            simp only [List.length_cons] at hlt
            omega
      · rw [if_neg hs]
        refine ih hWF ?_
        simp only [List.length_cons] at hlt
        omega

theorem go_ne_fuelOut {jobs : List (Sym × Pos)} {c : CandState} (hWF : WF c) :
    go jobs c ≠ .fuelOut := by
  refine goF_no_fuelOut hWF ?_
  simp [goFuel]

theorem setSymbol_ne_fuelOut {s : Sym} {p : Pos} {c : CandState} (hWF : WF c) :
    setSymbol s p c ≠ .fuelOut :=
  go_ne_fuelOut (WF_setC hWF _ _)

/-! ### The propagation invariant: covered violations stay covered, and a
completed run leaves no singleton symbol in any peer set -/

theorem goF_cover : ∀ {fuel : Nat} {jobs : List (Sym × Pos)} {c c' : CandState},
    goF fuel jobs c = .ok c' → WF c → JobsCover jobs c → NoPeerSingles c' := by
  intro fuel
  induction fuel with
  | zero => intro jobs c c' h _ _; simp [goF] at h
  | succ fuel ih =>
    intro jobs c c' h hWF hcov
    match jobs with
    | [] =>
      simp only [goF, PropRes.ok.injEq] at h
      subst h
      intro p q s hpq hsing hmem
      rcases hcov p q s hpq hsing hmem with hin | hin <;> simp at hin
    | (s, q) :: jobs =>
      rw [goF] at h
      by_cases hs : s ∈ getC c q
      · rw [if_pos hs] at h
        by_cases h1 : ((getC c q).erase s).card = 1
        · rw [if_pos h1] at h
          refine ih h (WF_setC hWF _ _) ?_
          have hone : (getC c q).erase s = {theSym ((getC c q).erase s)} :=
            eq_singleton_theSym h1
          intro p' q' s' hpeer hsing hmem
          by_cases hp' : q = p'
          · subst hp'
            rw [getC_setC_self hWF, hone] at hsing
            have hs' : s' = theSym ((getC c q).erase s) :=
              (Finset.singleton_inj.mp hsing).symm
            subst hs'
            left
            refine List.mem_append_left _ ?_
            exact List.mem_map.mpr ⟨q', mem_peersList_of_peer hpeer, rfl⟩
          · by_cases hq' : q = q'
            · subst hq'
              rw [getC_setC_self hWF, hone] at hmem
              have hs' : s' = theSym ((getC c q).erase s) :=
                Finset.mem_singleton.mp hmem
              subst hs'
              right
              refine List.mem_append_left _ ?_
              exact List.mem_map.mpr
                ⟨p', mem_peersList_of_peer (peer_symm hpeer), rfl⟩
            · rw [getC_setC_ne hp'] at hsing
              rw [getC_setC_ne hq'] at hmem
              rcases hcov p' q' s' hpeer hsing hmem with hin | hin
              · rcases List.mem_cons.mp hin with he | hin
                · exact absurd (congrArg Prod.snd he).symm hq'
                · exact Or.inl (List.mem_append_right _ hin)
              · rcases List.mem_cons.mp hin with he | hin
                · exact absurd (congrArg Prod.snd he).symm hp'
                · exact Or.inr (List.mem_append_right _ hin)
        · rw [if_neg h1] at h
          by_cases h0 : ((getC c q).erase s).card = 0
          · rw [if_pos h0] at h
            exact absurd h (by simp)
          · rw [if_neg h0] at h
            refine ih h (WF_setC hWF _ _) ?_
            intro p' q' s' hpeer hsing hmem
            have hp' : q ≠ p' := by
              intro he
              rw [← he] at hsing
              rw [getC_setC_self hWF] at hsing
              rw [hsing] at h1
              simp at h1
            rw [getC_setC_ne hp'] at hsing
            by_cases hq' : q = q'
            · subst hq'
              rw [getC_setC_self hWF] at hmem
              have hs'mem : s' ∈ getC c q := Finset.mem_of_mem_erase hmem
              have hs'ne : s' ≠ s := Finset.ne_of_mem_erase hmem
              rcases hcov p' q s' hpeer hsing hs'mem with hin | hin
              · rcases List.mem_cons.mp hin with he | hin
                · exact absurd (congrArg Prod.fst he) hs'ne
                · exact Or.inl hin
              · rcases List.mem_cons.mp hin with he | hin
                · exact absurd (congrArg Prod.snd he).symm hp'
                · exact Or.inr hin
            · rw [getC_setC_ne hq'] at hmem
              rcases hcov p' q' s' hpeer hsing hmem with hin | hin
              · rcases List.mem_cons.mp hin with he | hin
                · exact absurd (congrArg Prod.snd he).symm hq'
                · exact Or.inl hin
              · rcases List.mem_cons.mp hin with he | hin
                · exact absurd (congrArg Prod.snd he).symm hp'
                · exact Or.inr hin
      · rw [if_neg hs] at h
        refine ih h hWF ?_
        intro p' q' s' hpeer hsing hmem
        rcases hcov p' q' s' hpeer hsing hmem with hin | hin
        · rcases List.mem_cons.mp hin with he | hin
          · rw [Prod.mk.injEq] at he
            rw [he.2, he.1] at hmem
            exact absurd hmem hs
          · exact Or.inl hin
        · rcases List.mem_cons.mp hin with he | hin
          · rw [Prod.mk.injEq] at he
            rw [he.2, he.1] at hsing
            rw [hsing] at hs
            exact absurd (Finset.mem_singleton_self _) hs
          · exact Or.inr hin

/-! ### set_symbol preserves the solver invariants -/

theorem setSymbol_ok_good {s : Sym} {p : Pos} {c c' : CandState}
    (hG : GoodState c) (hs0 : s ≠ 0) (h : setSymbol s p c = .ok c') :
    GoodState c' ∧ getC c' p = {s} := by
  obtain ⟨hWF, hNE, hZF, hQ⟩ := hG
  have hWF0 : WF (setC c p {s}) := WF_setC hWF _ _
  rw [setSymbol, go] at h
  have hwf' : WF c' := goF_wf h hWF0
  have hsub := goF_subset h hWF0
  have hne := goF_nonempty h hWF0
  have hp : getC c' p = {s} := by
    refine eq_singleton_of_subset ?_ ?_
    · have := hsub p
      rwa [getC_setC_self hWF] at this
    · refine hne p ?_
      rw [getC_setC_self hWF]
      exact Finset.singleton_nonempty s
  refine ⟨⟨hwf', ?_, ?_, ?_⟩, hp⟩
  · intro q
    by_cases hqp : q = p
    · subst hqp
      rw [hp]
      exact Finset.singleton_nonempty s
    · refine hne q ?_
      rw [getC_setC_ne (fun he => hqp he.symm)]
      exact hNE q
  · intro q
    by_cases hqp : q = p
    · subst hqp
      rw [hp]
      simp only [Finset.mem_singleton]
      exact fun he => hs0 he.symm
    · intro hmem
      have := hsub q hmem
      rw [getC_setC_ne (fun he => hqp he.symm)] at this
      exact hZF q this
  · refine goF_cover h hWF0 ?_
    intro p' q' s' hpeer hsing hmem
    by_cases hp' : p' = p
    · subst hp'
      rw [getC_setC_self hWF] at hsing
      have hs' : s' = s := Finset.singleton_inj.mp hsing.symm
      subst hs'
      left
      exact List.mem_map.mpr ⟨q', mem_peersList_of_peer hpeer, rfl⟩
    · rw [getC_setC_ne (fun he => hp' he.symm)] at hsing
      by_cases hq' : q' = p
      · subst hq'
        rw [getC_setC_self hWF] at hmem
        have hs' : s' = s := Finset.mem_singleton.mp hmem
        subst hs'
        right
        exact List.mem_map.mpr ⟨p', mem_peersList_of_peer (peer_symm hpeer), rfl⟩
      · rw [getC_setC_ne (fun he => hq' he.symm)] at hmem
        exact absurd hmem (hQ p' q' s' hpeer hsing)

theorem setSymbol_wf {s : Sym} {p : Pos} {c c' : CandState}
    (h : setSymbol s p c = .ok c') (hWF : WF c) : WF c' := by
  rw [setSymbol, go] at h
  exact goF_wf h (WF_setC hWF _ _)

theorem setSymbol_keeps {s : Sym} {p : Pos} {c c' : CandState} {q : Pos} {v : Sym}
    (h : setSymbol s p c = .ok c') (hWF : WF c) (hqp : q ≠ p)
    (hv : getC c q = {v}) : getC c' q = {v} := by
  rw [setSymbol, go] at h
  have hsub := goF_subset h (WF_setC hWF _ _) q
  have hne := goF_nonempty h (WF_setC hWF _ _) q
  rw [getC_setC_ne (fun he => hqp he.symm)] at hsub hne
  rw [hv] at hsub
  exact eq_singleton_of_subset hsub (hne (by rw [hv]; exact Finset.singleton_nonempty v))

theorem setSymbol_skip {s : Sym} {p : Pos} {c : CandState} (hWF : WF c)
    (hv : getC c p = {s}) (hpeers : ∀ q, Peer p q → s ∉ getC c q) :
    setSymbol s p c = .ok c := by
  have hset : setC c p {s} = c := by
    rw [← hv]
    exact setC_getC_self hWF p
  rw [setSymbol, hset, go]
  refine goF_skip_all ?_ ?_
  · simp only [goFuel, List.length_map]
    omega
  · intro s' q hmem
    rcases List.mem_map.mp hmem with ⟨r, hr, he⟩
    rw [Prod.mk.injEq] at he
    rw [← he.1, ← he.2]
    exact hpeers r (peer_of_mem_peersList hr)

/-! ### The givens pass -/

theorem removeGivensAux_ne_fuelOut {b : Board} : ∀ {ps : List Pos} {c : CandState},
    WF c → removeGivensAux b ps c ≠ .fuelOut := by
  intro ps
  induction ps with
  | nil => intro c _; simp [removeGivensAux]
  | cons p ps ih =>
    intro c hWF
    rw [removeGivensAux]
    by_cases hb : b p ≠ 0
    · rw [if_pos hb]
      cases hset : setSymbol (b p) p c with
      | ok c2 => exact ih (setSymbol_wf hset hWF)
      | contra => simp
      | fuelOut => exact absurd hset (setSymbol_ne_fuelOut hWF)
    · rw [if_neg hb]
      exact ih hWF

/-- The raised outcome of solveRun only ever models the
SudokuBoardException: the propagation fuel is never exhausted. -/
theorem removeGivens_ne_fuelOut (b : Board) : removeGivens b ≠ .fuelOut :=
  removeGivensAux_ne_fuelOut WF_initCands

theorem initCands_good : GoodState initCands := by
  refine ⟨WF_initCands, ?_, ?_, ?_⟩
  · intro p
    rw [getC_initCands]
    exact ⟨1, by decide⟩
  · intro p
    rw [getC_initCands]
    decide
  · intro p q s hpq hsing
    rw [getC_initCands] at hsing
    have h9 : nineSet.card = 9 := by decide
    rw [hsing] at h9
    simp at h9

set_option maxRecDepth 200000 in
theorem givensList_nodup : givensList.Nodup := by decide

theorem mem_givensList (p : Pos) : p ∈ givensList := by
  obtain ⟨x, y⟩ := p
  simp only [givensList, List.mem_flatMap, List.mem_map]
  exact ⟨x, List.mem_finRange x, y, List.mem_finRange y, rfl⟩

theorem removeGivensAux_good {b : Board} : ∀ {ps : List Pos} {c c' : CandState},
    GoodState c → removeGivensAux b ps c = .ok c' → GoodState c' := by
  intro ps
  induction ps with
  | nil =>
    intro c c' hG h
    simp only [removeGivensAux, PropRes.ok.injEq] at h
    exact h ▸ hG
  | cons p ps ih =>
    intro c c' hG h
    rw [removeGivensAux] at h
    by_cases hb : b p ≠ 0
    · rw [if_pos hb] at h
      cases hset : setSymbol (b p) p c with
      | ok c2 =>
        rw [hset] at h
        exact ih (setSymbol_ok_good hG hb hset).1 h
      | contra => rw [hset] at h; exact absurd h (by simp)
      | fuelOut => rw [hset] at h; exact absurd h (by simp)
    · rw [if_neg hb] at h
      exact ih hG h

theorem removeGivensAux_keeps {b : Board} : ∀ {ps : List Pos} {c c' : CandState}
    {q : Pos} {v : Sym}, GoodState c → q ∉ ps → getC c q = {v} →
    removeGivensAux b ps c = .ok c' → getC c' q = {v} := by
  intro ps
  induction ps with
  | nil =>
    intro c c' q v _ _ hv h
    simp only [removeGivensAux, PropRes.ok.injEq] at h
    exact h ▸ hv
  | cons p ps ih =>
    intro c c' q v hG hq hv h
    have hqp : q ≠ p := fun he => hq (he ▸ List.mem_cons_self _ _)
    have hqs : q ∉ ps := fun hmem => hq (List.mem_cons_of_mem _ hmem)
    rw [removeGivensAux] at h
    by_cases hb : b p ≠ 0
    · rw [if_pos hb] at h
      cases hset : setSymbol (b p) p c with
      | ok c2 =>
        rw [hset] at h
        exact ih (setSymbol_ok_good hG hb hset).1 hqs
          (setSymbol_keeps hset hG.1 hqp hv) h
      | contra => rw [hset] at h; exact absurd h (by simp)
      | fuelOut => rw [hset] at h; exact absurd h (by simp)
    · rw [if_neg hb] at h
      exact ih hG hqs hv h

theorem removeGivensAux_fixes {b : Board} : ∀ {ps : List Pos} {c c' : CandState},
    GoodState c → ps.Nodup → removeGivensAux b ps c = .ok c' →
    ∀ p ∈ ps, b p ≠ 0 → getC c' p = {b p} := by
  intro ps
  induction ps with
  | nil => intro c c' _ _ _ p hp; simp at hp
  | cons p0 ps ih =>
    intro c c' hG hnd h p hp hbp
    have hnd0 : p0 ∉ ps := (List.nodup_cons.mp hnd).1
    have hnds : ps.Nodup := (List.nodup_cons.mp hnd).2
    rw [removeGivensAux] at h
    by_cases hb : b p0 ≠ 0
    · rw [if_pos hb] at h
      cases hset : setSymbol (b p0) p0 c with
      | ok c2 =>
        rw [hset] at h
        have hG2 := (setSymbol_ok_good hG hb hset).1
        rcases List.mem_cons.mp hp with he | hmem
        · subst he
          exact removeGivensAux_keeps hG2 hnd0 (setSymbol_ok_good hG hb hset).2 h
        · exact ih hG2 hnds h p hmem hbp
      | contra => rw [hset] at h; exact absurd h (by simp)
      | fuelOut => rw [hset] at h; exact absurd h (by simp)
    · rw [if_neg hb] at h
      rcases List.mem_cons.mp hp with he | hmem
      · subst he
        exact absurd hbp hb
      · exact ih hG hnds h p hmem hbp

theorem removeGivensAux_skip {b : Board} : ∀ {ps : List Pos} {c : CandState},
    WF c → NoPeerSingles c → (∀ p ∈ ps, b p ≠ 0 → getC c p = {b p}) →
    removeGivensAux b ps c = .ok c := by
  intro ps
  induction ps with
  | nil => intro c _ _ _; rfl
  | cons p ps ih =>
    intro c hWF hQ hfix
    rw [removeGivensAux]
    by_cases hb : b p ≠ 0
    · rw [if_pos hb]
      have hv : getC c p = {b p} := hfix p (List.mem_cons_self _ _) hb
      have hskip : setSymbol (b p) p c = .ok c := by
        refine setSymbol_skip hWF hv ?_
        intro q hpq
        exact hQ p q (b p) hpq hv
      rw [hskip]
      exact ih hWF hQ (fun r hr => hfix r (List.mem_cons_of_mem _ hr))
    · rw [if_neg hb]
      exact ih hWF hQ (fun r hr => hfix r (List.mem_cons_of_mem _ hr))

/-- C8: givens propagation is idempotent.  If the first
remove_givens_from_board_candidates pass over the fresh candidate sets
completes without raising and produces the candidate state c, then running
the same pass a second time over c returns c itself: all 81 candidate sets
are left unchanged. -/
theorem propagation_idempotent (b : Board) (c : CandState)
    (h : removeGivens b = .ok c) : removeGivensAux b givensList c = .ok c := by
  have hG : GoodState c := removeGivensAux_good initCands_good h
  refine removeGivensAux_skip hG.1 hG.2.2.2 ?_
  intro p hp hb
  exact removeGivensAux_fixes initCands_good givensList_nodup h p hp hb

set_option maxRecDepth 400000 in
/-- C8 witness: a concrete three-givens board on which the propagation
pass completes, and whose resulting candidate state the second pass maps
to itself. -/
theorem propagation_idempotent_witness :
    removeGivensAux bThree givensList (okState (removeGivens bThree)) =
      .ok (okState (removeGivens bThree)) :=
  propagation_idempotent bThree (okState (removeGivens bThree)) (by decide)

/-! ### Contradictory givens raise an exception that escapes solve -/

theorem removeGivensAux_oneSet {b : Board} {p1 p2 : Pos} {s : Sym} :
    ∀ {ps : List Pos} {c c' : CandState}, GoodState c → getC c p1 = {s} →
    Peer p1 p2 → p1 ∉ ps → p2 ∈ ps → b p2 = s →
    removeGivensAux b ps c = .ok c' → False := by
  intro ps
  induction ps with
  | nil => intro c c' _ _ _ _ hp2 _ _; simp at hp2
  | cons q ps ih =>
    intro c c' hG hv hpeer hp1 hp2 hb2 h
    have hs0 : s ≠ 0 := by
      intro he
      refine hG.2.2.1 p1 ?_
      rw [hv, he]
      exact Finset.mem_singleton_self 0
    have hp1q : p1 ≠ q := fun he => hp1 (he ▸ List.mem_cons_self _ _)
    have hp1s : p1 ∉ ps := fun hmem => hp1 (List.mem_cons_of_mem _ hmem)
    rw [removeGivensAux] at h
    rcases List.mem_cons.mp hp2 with he | hmem
    · subst he
      rw [if_pos (hb2 ▸ hs0)] at h
      cases hset : setSymbol (b p2) p2 c with
      | ok c2 =>
        have hfix2 : getC c2 p2 = {s} := by
          have := (setSymbol_ok_good hG (hb2 ▸ hs0) hset).2
          rwa [hb2] at this
        have hfix1 : getC c2 p1 = {s} :=
          setSymbol_keeps hset hG.1 (fun he => hpeer.1 he) hv
        have hQ2 : NoPeerSingles c2 := (setSymbol_ok_good hG (hb2 ▸ hs0) hset).1.2.2.2
        refine hQ2 p2 p1 s (peer_symm hpeer) hfix2 ?_
        rw [hfix1]
        exact Finset.mem_singleton_self s
      | contra => rw [hset] at h; exact absurd h (by simp)
      | fuelOut => rw [hset] at h; exact absurd h (by simp)
    · by_cases hb : b q ≠ 0
      · rw [if_pos hb] at h
        cases hset : setSymbol (b q) q c with
        | ok c2 =>
          rw [hset] at h
          exact ih (setSymbol_ok_good hG hb hset).1
            (setSymbol_keeps hset hG.1 hp1q hv) hpeer hp1s hmem hb2 h
        | contra => rw [hset] at h; exact absurd h (by simp)
        | fuelOut => rw [hset] at h; exact absurd h (by simp)
      · rw [if_neg hb] at h
        exact ih hG hv hpeer hp1s hmem hb2 h

theorem removeGivensAux_bothPending {b : Board} {p1 p2 : Pos} {s : Sym} :
    ∀ {ps : List Pos} {c c' : CandState}, GoodState c → ps.Nodup →
    p1 ∈ ps → p2 ∈ ps → Peer p1 p2 → b p1 = s → b p2 = s → s ≠ 0 →
    removeGivensAux b ps c = .ok c' → False := by
  intro ps
  induction ps with
  | nil => intro c c' _ _ hp1 _ _ _ _ _ _; simp at hp1
  | cons q ps ih =>
    intro c c' hG hnd hp1 hp2 hpeer hb1 hb2 hs0 h
    have hnd0 : q ∉ ps := (List.nodup_cons.mp hnd).1
    have hnds : ps.Nodup := (List.nodup_cons.mp hnd).2
    rw [removeGivensAux] at h
    by_cases hq1 : q = p1
    · subst hq1
      rw [if_pos (hb1 ▸ hs0)] at h
      cases hset : setSymbol (b q) q c with
      | ok c2 =>
        rw [hset] at h
        have hfix1 : getC c2 q = {s} := by
          have := (setSymbol_ok_good hG (hb1 ▸ hs0) hset).2
          rwa [hb1] at this
        have hp2s : p2 ∈ ps :=
          (List.mem_cons.mp hp2).resolve_left (fun he => hpeer.1 he.symm)
        exact removeGivensAux_oneSet (setSymbol_ok_good hG (hb1 ▸ hs0) hset).1
          hfix1 hpeer hnd0 hp2s hb2 h
      | contra => rw [hset] at h; exact absurd h (by simp)
      | fuelOut => rw [hset] at h; exact absurd h (by simp)
    · by_cases hq2 : q = p2
      · subst hq2
        rw [if_pos (hb2 ▸ hs0)] at h
        cases hset : setSymbol (b q) q c with
        | ok c2 =>
          rw [hset] at h
          have hfix2 : getC c2 q = {s} := by
            have := (setSymbol_ok_good hG (hb2 ▸ hs0) hset).2
            rwa [hb2] at this
          have hp1s : p1 ∈ ps :=
            (List.mem_cons.mp hp1).resolve_left (fun he => hpeer.1 he)
          exact removeGivensAux_oneSet (setSymbol_ok_good hG (hb2 ▸ hs0) hset).1
            hfix2 (peer_symm hpeer) hnd0 hp1s hb1 h
        | contra => rw [hset] at h; exact absurd h (by simp)
        | fuelOut => rw [hset] at h; exact absurd h (by simp)
      · have hp1s : p1 ∈ ps :=
          (List.mem_cons.mp hp1).resolve_left (fun he => hq1 he.symm)
        have hp2s : p2 ∈ ps :=
          (List.mem_cons.mp hp2).resolve_left (fun he => hq2 he.symm)
        by_cases hb : b q ≠ 0
        · rw [if_pos hb] at h
          cases hset : setSymbol (b q) q c with
          | ok c2 =>
            rw [hset] at h
            exact ih (setSymbol_ok_good hG hb hset).1 hnds hp1s hp2s hpeer
              hb1 hb2 hs0 h
          | contra => rw [hset] at h; exact absurd h (by simp)
          | fuelOut => rw [hset] at h; exact absurd h (by simp)
        · rw [if_neg hb] at h
          exact ih hG hnds hp1s hp2s hpeer hb1 hb2 hs0 h

/-- C3: a board (built with validation disabled) holding two equal
non-empty symbols in the same row makes solve raise: the propagation of
the givens drives some candidate set empty and the SudokuBoardException
escapes to the caller, instead of solve returning True with a wrong
answer or returning False silently.  The board is left untouched. -/
theorem solve_raises_on_row_duplicate (b : Board) (x1 x2 y : Fin 9) (s : Sym)
    (hx : x1 ≠ x2) (hs : s ≠ 0) (h1 : b (x1, y) = s) (h2 : b (x2, y) = s) :
    (solveRun b).2 = SolveOutcome.raised ∧ (solveRun b).1 = b := by
  have hnotok : ∀ c', removeGivens b ≠ .ok c' := by
    intro c' h
    have hpeer : Peer (x1, y) (x2, y) := by
      refine ⟨?_, Or.inl rfl⟩
      intro he
      rw [Prod.mk.injEq] at he
      exact hx he.1
    exact removeGivensAux_bothPending initCands_good givensList_nodup
      (mem_givensList (x1, y)) (mem_givensList (x2, y)) hpeer h1 h2 hs h
  cases hrg : removeGivens b with
  | ok c => exact absurd hrg (hnotok c)
  | contra => simp [solveRun, hrg]
  | fuelOut => simp [solveRun, hrg]

/-- C3 witness: the concrete board with the symbol 5 at both (0,0) and
(1,0) in row 0. -/
theorem solve_raises_on_row_duplicate_witness :
    (solveRun bDup).2 = SolveOutcome.raised ∧ (solveRun bDup).1 = bDup :=
  solve_raises_on_row_duplicate bDup 0 1 0 5 (by decide) (by decide)
    (by rfl) (by rfl)

/-- C9: solve writes to the board only on the success path: whenever it
does not return True, the 81 symbols of the underlying board are exactly
the input board's.  In particular a False return (search exhausted) leaves
the board unchanged. -/
theorem solve_failure_leaves_board (b : Board) :
    (solveRun b).2 = SolveOutcome.success ∨ (solveRun b).1 = b := by
  cases hrg : removeGivens b with
  | ok c =>
    cases hss : solveSearch c with
    | some syms =>
      left
      simp [solveRun, hrg, hss]
    | none =>
      right
      simp [solveRun, hrg, hss]
  | contra =>
    right
    simp [solveRun, hrg]
  | fuelOut =>
    right
    simp [solveRun, hrg]

/-! ### The space chosen for branching -/

theorem cardOrder_trans (c : CandState) : ∀ (a b d : Nat),
    decide (cardAt c a ≤ cardAt c b) = true →
    decide (cardAt c b ≤ cardAt c d) = true →
    decide (cardAt c a ≤ cardAt c d) = true := by
  intro a b d hab hbd
  simp only [decide_eq_true_eq] at hab hbd ⊢
  omega

theorem cardOrder_total (c : CandState) : ∀ (a b : Nat),
    (decide (cardAt c a ≤ cardAt c b) || decide (cardAt c b ≤ cardAt c a)) = true := by
  intro a b
  simp only [Bool.or_eq_true, decide_eq_true_eq]
  omega

theorem insertBy_ne_nil (le : Nat → Nat → Bool) (x : Nat) :
    ∀ l : List Nat, insertBy le x l ≠ [] := by
  intro l
  cases l with
  | nil => simp [insertBy]
  | cons y ys =>
    rw [insertBy]
    split <;> simp

theorem sortBy_eq_nil {le : Nat → Nat → Bool} :
    ∀ {l : List Nat}, sortBy le l = [] → l = [] := by
  intro l h
  cases l with
  | nil => rfl
  | cons x xs =>
    rw [sortBy] at h
    exact absurd h (insertBy_ne_nil le x _)

theorem sortBy_head_spec (le : Nat → Nat → Bool)
    (htot : ∀ a b, (le a b || le b a) = true)
    (htrans : ∀ a b d, le a b = true → le b d = true → le a d = true) :
    ∀ (l : List Nat) (i : Nat) (tl : List Nat), l.Pairwise (· < ·) →
      sortBy le l = i :: tl →
      i ∈ l ∧ (∀ j ∈ l, le i j = true) ∧ (∀ j ∈ l, j < i → le j i = false) := by
  intro l
  induction l with
  | nil => intro i tl _ h; simp [sortBy] at h
  | cons x xs ih =>
    intro i tl hpw h
    have hlexx : le x x = true := by
      have := htot x x
      simpa using this
    rw [sortBy] at h
    cases hxs : sortBy le xs with
    | nil =>
      obtain rfl := sortBy_eq_nil hxs
      rw [hxs, insertBy, List.cons.injEq] at h
      obtain ⟨rfl, -⟩ := h
      refine ⟨List.mem_cons_self _ _, ?_, ?_⟩
      · intro j hj
        rcases List.mem_cons.mp hj with rfl | hj
        · exact hlexx
        · simp at hj
      · intro j hj hji
        rcases List.mem_cons.mp hj with rfl | hj
        · omega
        · simp at hj
    | cons i0 tl0 =>
      rw [hxs, insertBy] at h
      have hIH := ih i0 tl0 (List.Pairwise.of_cons hpw) hxs
      by_cases hxi : le x i0 = true
      · rw [if_pos hxi, List.cons.injEq] at h
        obtain ⟨rfl, -⟩ := h
        refine ⟨List.mem_cons_self _ _, ?_, ?_⟩
        · intro j hj
          rcases List.mem_cons.mp hj with rfl | hj
          · exact hlexx
          · exact htrans x i0 j hxi (hIH.2.1 j hj)
        · intro j hj hji
          rcases List.mem_cons.mp hj with rfl | hj
          · omega
          · have := List.rel_of_pairwise_cons hpw hj
            omega
      · rw [if_neg hxi, List.cons.injEq] at h
        obtain ⟨rfl, -⟩ := h
        have hxi' : le x i0 = false := Bool.eq_false_iff.mpr hxi
        have hlei0x : le i0 x = true := by
          have := htot x i0
          rw [hxi'] at this
          simpa using this
        refine ⟨List.mem_cons_of_mem _ hIH.1, ?_, ?_⟩
        · intro j hj
          rcases List.mem_cons.mp hj with rfl | hj
          · exact hlei0x
          · exact hIH.2.1 j hj
        · intro j hj hji
          rcases List.mem_cons.mp hj with rfl | hj
          · exact hxi'
          · exact hIH.2.2 j hj hji

theorem chooseIdx_head (c : CandState) (i : Nat) (h : chooseIdx c = some i) :
    i < 81 ∧ cardAt c i ≠ 1 ∧
    (∀ j, j < 81 → cardAt c j ≠ 1 → cardAt c i ≤ cardAt c j) ∧
    (∀ j, j < i → cardAt c j ≠ 1 → cardAt c i < cardAt c j) := by
  rcases hord : orderOfSpaces c with _ | ⟨i0, tl⟩
  · rw [chooseIdx, hord] at h
    simp at h
  · rw [chooseIdx, hord] at h
    simp only [List.head?_cons, Option.some.injEq] at h
    have h' : i = i0 := h.symm
    subst h'
    rw [orderOfSpaces] at hord
    have hpw : ((List.range 81).filter
        (fun j => decide (cardAt c j ≠ 1))).Pairwise (· < ·) :=
      (List.pairwise_lt_range 81).filter _
    have hspec := sortBy_head_spec _ (cardOrder_total c) (cardOrder_trans c)
      _ i tl hpw hord
    have hmemi := hspec.1
    rw [List.mem_filter] at hmemi
    have hi81 : i < 81 := List.mem_range.mp hmemi.1
    have hine : cardAt c i ≠ 1 := by simpa using hmemi.2
    refine ⟨hi81, hine, ?_, ?_⟩
    · intro j hj hjne
      have hjmem : j ∈ (List.range 81).filter (fun k => decide (cardAt c k ≠ 1)) :=
        List.mem_filter.mpr ⟨List.mem_range.mpr hj, by simpa using hjne⟩
      have := hspec.2.1 j hjmem
      simpa using this
    · intro j hji hjne
      have hjmem : j ∈ (List.range 81).filter (fun k => decide (cardAt c k ≠ 1)) :=
        List.mem_filter.mpr ⟨List.mem_range.mpr (by omega), by simpa using hjne⟩
      have := hspec.2.2 j hjmem hji
      simp only [decide_eq_false_iff_not] at this
      omega

/-- C4: at every level of solve_through_search the space chosen for
branching is, among all spaces whose candidate set has a size other than
one (the unsolved spaces), one with the smallest candidate-set size, ties
broken in favor of the space first encountered in row-major scan order
(linear index i = y*9 + x, ascending): the chosen index is unsolved, its
candidate count is minimal among the unsolved indices, and every smaller
unsolved index has a strictly larger candidate count. -/
theorem chooseIdx_spec (c : CandState) (i : Nat) (h : chooseIdx c = some i) :
    i < 81 ∧ cardAt c i ≠ 1 ∧
    (∀ j, j < 81 → cardAt c j ≠ 1 → cardAt c i ≤ cardAt c j) ∧
    (∀ j, j < i → cardAt c j ≠ 1 → cardAt c i < cardAt c j) :=
  chooseIdx_head c i h

/-- C4 witness: on the fresh all-nines candidate state the chosen space is
linear index 0, of minimal candidate count among the unsolved spaces and
first in row-major order. -/
theorem chooseIdx_spec_witness :
    0 < 81 ∧ cardAt initCands 0 ≠ 1 ∧
    (∀ j, j < 81 → cardAt initCands j ≠ 1 →
      cardAt initCands 0 ≤ cardAt initCands j) ∧
    (∀ j, j < 0 → cardAt initCands j ≠ 1 →
      cardAt initCands 0 < cardAt initCands j) :=
  chooseIdx_spec initCands 0 (by decide)

theorem chooseIdx_none {c : CandState} (h : chooseIdx c = none) :
    ∀ {i : Nat}, i < 81 → cardAt c i = 1 := by
  intro i hi
  by_contra hne
  rw [chooseIdx] at h
  cases hl : orderOfSpaces c with
  | nil =>
    rw [orderOfSpaces] at hl
    have hfil : (List.range 81).filter (fun j => decide (cardAt c j ≠ 1)) = [] :=
      sortBy_eq_nil hl
    have hmem : i ∈ (List.range 81).filter (fun j => decide (cardAt c j ≠ 1)) :=
      List.mem_filter.mpr ⟨List.mem_range.mpr hi, by simpa using hne⟩
    rw [hfil] at hmem
    simp at hmem
  | cons a t =>
    rw [hl] at h
    simp at h

/-! ### The search measure strictly decreases at every recursion -/

theorem multiCount_lt {c c2 : CandState} {p : Pos} {s : Sym} (hWF : WF c)
    (hcard : 1 < (getC c p).card) (h : setSymbol s p c = .ok c2) :
    multiCount c2 < multiCount c := by
  rw [setSymbol, go] at h
  have hWF0 : WF (setC c p {s}) := WF_setC hWF _ _
  have hsub := goF_subset h hWF0
  have hne := goF_nonempty h hWF0
  have hp : getC c2 p = {s} := by
    refine eq_singleton_of_subset ?_ ?_
    · have := hsub p
      rwa [getC_setC_self hWF] at this
    · refine hne p ?_
      rw [getC_setC_self hWF]
      exact Finset.singleton_nonempty s
  have hsub' : ∀ q, q ≠ p → getC c2 q ⊆ getC c q := by
    intro q hqp
    have := hsub q
    rwa [getC_setC_ne (fun he => hqp he.symm)] at this
  apply Finset.card_lt_card
  rw [Finset.ssubset_iff_of_subset]
  · refine ⟨p, ?_, ?_⟩
    · simp only [Finset.mem_filter, Finset.mem_univ, true_and]
      omega
    · simp only [Finset.mem_filter, Finset.mem_univ, true_and, not_lt, hp]
      simp
  · intro q hq
    simp only [Finset.mem_filter, Finset.mem_univ, true_and] at hq ⊢
    by_cases hqp : q = p
    · subst hqp
      rw [hp] at hq
      simp at hq
    · have := Finset.card_le_card (hsub' q hqp)
      omega

theorem rangeFree_setSymbol {c c2 : CandState} {p : Pos} {s : Sym}
    (hWF : WF c) (hrange : ∀ q, getC c q ⊆ nineSet) (hsmem : s ∈ getC c p)
    (h : setSymbol s p c = .ok c2) : ∀ q, getC c2 q ⊆ nineSet := by
  rw [setSymbol, go] at h
  have hWF0 : WF (setC c p {s}) := WF_setC hWF _ _
  have hsub := goF_subset h hWF0
  intro q
  refine (hsub q).trans ?_
  by_cases hqp : p = q
  · subst hqp
    rw [getC_setC_self hWF]
    intro t ht
    rw [Finset.mem_singleton] at ht
    exact ht ▸ hrange p hsmem
  · rw [getC_setC_ne hqp]
    exact hrange q

/-- C5: solve terminates on every input board.  At any recursion step of
solve_through_search (the branching space was chosen, a candidate of that
space was selected and its propagation succeeded), the state passed to the
recursive call has strictly fewer spaces with more than one candidate than
the caller's state; that count never exceeds 81, and the candidate loop of
a level runs over at most 9 candidates.  Hence the recursion depth is
bounded by 81 with at most 9 branches per level, and the fuel of 82 used
by the embedding is never exhausted on solver-reachable states. -/
theorem search_strictly_decreases (c : CandState) (i : Nat) (s : Sym)
    (c2 : CandState) (hWF : WF c) (hrange : ∀ q, getC c q ⊆ nineSet)
    (hchoose : chooseIdx c = some i) (hs : s ∈ candList c (posOfIdx i))
    (hstep : setSymbol s (posOfIdx i) c = .ok c2) :
    multiCount c2 < multiCount c ∧ multiCount c ≤ 81 ∧
      (candList c (posOfIdx i)).length ≤ 9 := by
  have hine : cardAt c i ≠ 1 := (chooseIdx_head c i hchoose).2.1
  have hsmem : s ∈ getC c (posOfIdx i) := (Finset.mem_sort _).mp hs
  have hpos : 0 < (getC c (posOfIdx i)).card := Finset.card_pos.mpr ⟨s, hsmem⟩
  have hcard : 1 < (getC c (posOfIdx i)).card := by
    have : (getC c (posOfIdx i)).card ≠ 1 := hine
    omega
  refine ⟨multiCount_lt hWF hcard hstep, ?_, ?_⟩
  · calc multiCount c ≤ Finset.univ.card := Finset.card_filter_le _ _
    _ = 81 := by simp
  · rw [candList, Finset.length_sort]
    calc (getC c (posOfIdx i)).card ≤ nineSet.card :=
      Finset.card_le_card (hrange _)
    _ = 9 := by decide

/-- C5 witness: the first branching step on the fresh all-nines state. -/
theorem search_strictly_decreases_witness :
    multiCount (okState (setSymbol 1 (posOfIdx 0) initCands)) <
      multiCount initCands ∧
    multiCount initCands ≤ 81 ∧ (candList initCands (posOfIdx 0)).length ≤ 9 :=
  search_strictly_decreases initCands 0 1
    (okState (setSymbol 1 (posOfIdx 0) initCands)) WF_initCands
    (fun q => by rw [getC_initCands])
    (by decide)
    ((Finset.mem_sort _).mpr (by rw [getC_initCands]; decide))
    (by decide)

/-! ### Every returned search result is a full and valid board -/

theorem getD_map_range {β : Type} (f : Nat → β) (d : β) {i n : Nat} (h : i < n) :
    ((List.range n).map f).getD i d = f i := by
  rw [List.getD_eq_getElem?_getD, List.getElem?_map, List.getElem?_range h]
  rfl

theorem boardOfSymbols_mkSymbols {c : CandState} (p : Pos) :
    boardOfSymbols (mkSymbols c) p =
      (if (getC c p).card = 1 then theSym (getC c p) else 0) := by
  rw [boardOfSymbols, mkSymbols, getD_map_range _ _ (idxOfPos_lt p)]
  simp only [cardAt, posOfIdx_idxOfPos]

theorem theSym_mem {s : Finset Sym} (h : s.card = 1) : theSym s ∈ s := by
  obtain ⟨a, rfl⟩ := Finset.card_eq_one.mp h
  simp [theSym]

theorem validUnit_true {α : Type} [DecidableEq α] (e : α) :
    ∀ (l : List α) (seen : Finset α), (∀ a ∈ l, a ≠ e → a ∉ seen) →
      l.Pairwise (fun a b => b ≠ e → a ≠ b) → validUnit e l seen = true := by
  intro l
  induction l with
  | nil => intro seen _ _; rfl
  | cons a l ih =>
    intro seen hseen hpw
    rw [validUnit, if_neg]
    · refine ih _ ?_ (List.Pairwise.of_cons hpw)
      intro x hx hxe
      simp only [Finset.mem_insert, not_or]
      constructor
      · intro he
        exact (List.rel_of_pairwise_cons hpw hx) hxe he.symm
      · exact hseen x (List.mem_cons_of_mem _ hx) hxe
    · rintro ⟨hae, hmem⟩
      exact hseen a (List.mem_cons_self _ _) hae hmem

theorem validUnit_of_peers {c : CandState} (hQ : NoPeerSingles c)
    (hall : ∀ p, (getC c p).card = 1) {b : Board}
    (hb : ∀ p, b p = theSym (getC c p)) (l : List Pos) (hnd : l.Nodup)
    (hpeers : ∀ p ∈ l, ∀ q ∈ l, p ≠ q → Peer p q) :
    validUnit 0 (l.map b) ∅ = true := by
  refine validUnit_true 0 _ _ (by simp) ?_
  rw [List.pairwise_map]
  refine List.Pairwise.imp_of_mem ?_ hnd
  intro p q hp hq hpq _
  have hpeer := hpeers p hp q hq hpq
  have habs := hQ p q (theSym (getC c p)) hpeer (eq_singleton_theSym (hall p))
  rw [hb p, hb q]
  intro he
  apply habs
  rw [he]
  exact theSym_mem (hall q)

theorem boxPosList_nodup : ∀ bx bt : Fin 3, (boxPosList bx bt).Nodup := by decide

theorem boxPosList_coords : ∀ (bx bt : Fin 3) (q : Pos), q ∈ boxPosList bx bt →
    ((q.1 : Nat) / 3 = (bx : Nat) ∧ (q.2 : Nat) / 3 = (bt : Nat)) := by decide

theorem allOne_solved {c : CandState} (hG : GoodState c)
    (hall : ∀ p, (getC c p).card = 1) : SolvedSyms (mkSymbols c) := by
  obtain ⟨hWF, hNE, hZF, hQ⟩ := hG
  have hb : ∀ p, boardOfSymbols (mkSymbols c) p = theSym (getC c p) := by
    intro p
    rw [boardOfSymbols_mkSymbols, if_pos (hall p)]
  have hbne : ∀ p, boardOfSymbols (mkSymbols c) p ≠ 0 := by
    intro p he
    rw [hb p] at he
    exact hZF p (he ▸ theSym_mem (hall p))
  constructor
  · rw [isValidBoard]
    simp only [Bool.and_eq_true, List.all_eq_true]
    refine ⟨⟨?_, ?_⟩, ?_⟩
    · intro x _
      have hcol : getColumn (boardOfSymbols (mkSymbols c)) x =
          ((List.finRange 9).map (fun y => ((x, y) : Pos))).map
            (boardOfSymbols (mkSymbols c)) := by
        simp [getColumn, List.map_map, Function.comp_def]
      rw [hcol]
      refine validUnit_of_peers hQ hall hb _ ?_ ?_
      · refine List.Nodup.map ?_ (List.nodup_finRange 9)
        intro a b he
        exact (Prod.mk.injEq _ _ _ _).mp he |>.2
      · intro p hp q hq hpq
        rcases List.mem_map.mp hp with ⟨y1, _, rfl⟩
        rcases List.mem_map.mp hq with ⟨y2, _, rfl⟩
        exact ⟨hpq, Or.inr (Or.inl rfl)⟩
    · intro y _
      have hrow : getRow (boardOfSymbols (mkSymbols c)) y =
          ((List.finRange 9).map (fun x => ((x, y) : Pos))).map
            (boardOfSymbols (mkSymbols c)) := by
        simp [getRow, List.map_map, Function.comp_def]
      rw [hrow]
      refine validUnit_of_peers hQ hall hb _ ?_ ?_
      · refine List.Nodup.map ?_ (List.nodup_finRange 9)
        intro a b he
        exact (Prod.mk.injEq _ _ _ _).mp he |>.1
      · intro p hp q hq hpq
        rcases List.mem_map.mp hp with ⟨x1, _, rfl⟩
        rcases List.mem_map.mp hq with ⟨x2, _, rfl⟩
        exact ⟨hpq, Or.inl rfl⟩
    · intro t _ l _
      rw [getBox]
      refine validUnit_of_peers hQ hall hb _ (boxPosList_nodup l t) ?_
      intro p hp q hq hpq
      have hpc := boxPosList_coords l t p hp
      have hqc := boxPosList_coords l t q hq
      exact ⟨hpq, Or.inr (Or.inr ⟨hpc.1.trans hqc.1.symm, hpc.2.trans hqc.2.symm⟩)⟩
  · rw [isFull]
    simp only [List.all_eq_true, decide_eq_true_eq]
    intro x _ y _
    exact hbne (x, y)

theorem tryCandsF_sound {rec : CandState → Option (List Sym)}
    (hrec : ∀ c2 syms, GoodState c2 → rec c2 = some syms → SolvedSyms syms) :
    ∀ {l : List Sym} {p : Pos} {c : CandState} {syms : List Sym}, GoodState c →
      (∀ s ∈ l, s ∈ getC c p) → tryCandsF rec l p c = some syms →
      SolvedSyms syms := by
  intro l
  induction l with
  | nil =>
    intro p c syms _ _ h
    simp [tryCandsF] at h
  | cons s rest ih =>
    intro p c syms hG hl h
    have hl' : ∀ t ∈ rest, t ∈ getC c p :=
      fun t ht => hl t (List.mem_cons_of_mem _ ht)
    rw [tryCandsF] at h
    cases hset : setSymbol s p c with
    | ok c2 =>
      rw [hset] at h
      have h2 : (if isValidBoard 0 (boardOfSymbols (mkSymbols c2)) = false then
          tryCandsF rec rest p c
        else if isFull 0 (boardOfSymbols (mkSymbols c2)) = true then
          some (mkSymbols c2)
        else
          match rec c2 with
          | some r => some r
          | none => tryCandsF rec rest p c) = some syms := h
      have hs0 : s ≠ 0 := by
        intro he
        exact hG.2.2.1 p (he ▸ hl s (List.mem_cons_self _ _))
      have hG2 : GoodState c2 := (setSymbol_ok_good hG hs0 hset).1
      by_cases hv : isValidBoard 0 (boardOfSymbols (mkSymbols c2)) = false
      · rw [if_pos hv] at h2
        exact ih hG hl' h2
      · rw [if_neg hv] at h2
        by_cases hf : isFull 0 (boardOfSymbols (mkSymbols c2)) = true
        · rw [if_pos hf] at h2
          rw [Option.some.injEq] at h2
          subst h2
          exact ⟨by simpa using hv, hf⟩
        · rw [if_neg hf] at h2
          cases hrecres : rec c2 with
          | some r =>
            rw [hrecres] at h2
            have hr : r = syms := by
              have h3 : some r = some syms := h2
              exact Option.some.injEq _ _ ▸ (by simpa using h3)
            subst hr
            exact hrec c2 r hG2 hrecres
          | none =>
            rw [hrecres] at h2
            exact ih hG hl' h2
    | contra =>
      rw [hset] at h
      exact ih hG hl' h
    | fuelOut =>
      rw [hset] at h
      exact ih hG hl' h

theorem solveSearchF_sound : ∀ (fuel : Nat) {c : CandState} {syms : List Sym},
    GoodState c → solveSearchF fuel c = some syms → SolvedSyms syms := by
  intro fuel
  induction fuel with
  | zero =>
    intro c syms _ h
    simp [solveSearchF] at h
  | succ fuel ih =>
    intro c syms hG h
    rw [solveSearchF] at h
    cases hch : chooseIdx c with
    | none =>
      rw [hch] at h
      have h2 : some (mkSymbols c) = some syms := h
      rw [Option.some.injEq] at h2
      subst h2
      refine allOne_solved hG ?_
      intro p
      have := chooseIdx_none hch (idxOfPos_lt p)
      rwa [cardAt, posOfIdx_idxOfPos] at this
    | some i =>
      rw [hch] at h
      have h2 : tryCandsF (solveSearchF fuel) (candList c (posOfIdx i))
          (posOfIdx i) c = some syms := h
      exact tryCandsF_sound (fun c2 s2 hg2 hr => ih hg2 hr) hG
        (fun s hs => (Finset.mem_sort _).mp hs) h2

/-- C1: whenever BasicSolver.solve returns True, the board it has written
is completely filled and has no repeated non-empty symbol in any row,
column or box: is_full() and is_valid_board() both hold, equivalently
is_solved() is True.  This covers in particular the branch where the
givens propagation alone collapses every candidate set to a singleton and
solve_through_search returns without an explicit validity check. -/
theorem solve_returns_solved (b b2 : Board)
    (h : solveRun b = (b2, SolveOutcome.success)) :
    isFull 0 b2 = true ∧ isValidBoard 0 b2 = true ∧ isSolvedBoard b2 = true := by
  cases hrg : removeGivens b with
  | ok c =>
    cases hss : solveSearch c with
    | some syms =>
      have h2 : solveRun b = (boardOfSymbols syms, SolveOutcome.success) := by
        simp [solveRun, hrg, hss]
      rw [h2] at h
      have hb2 : boardOfSymbols syms = b2 := congrArg Prod.fst h
      have hG : GoodState c := removeGivensAux_good initCands_good hrg
      have hsolved : SolvedSyms syms := solveSearchF_sound 82 hG hss
      rw [← hb2]
      refine ⟨hsolved.2, hsolved.1, ?_⟩
      rw [isSolvedBoard, hsolved.1, hsolved.2]
      rfl
    | none =>
      have h2 : solveRun b = (b, SolveOutcome.failure) := by
        simp [solveRun, hrg, hss]
      rw [h2] at h
      have := congrArg Prod.snd h
      simp at this
  | contra =>
    have h2 : solveRun b = (b, SolveOutcome.raised) := by simp [solveRun, hrg]
    rw [h2] at h
    have := congrArg Prod.snd h
    simp at this
  | fuelOut =>
    have h2 : solveRun b = (b, SolveOutcome.raised) := by simp [solveRun, hrg]
    rw [h2] at h
    have := congrArg Prod.snd h
    simp at this

set_option maxRecDepth 1000000 in
set_option maxHeartbeats 4000000 in
/-- C1 witness: solve on the completely filled valid board succeeds (via
the propagation-only branch) and the written board is full, valid and
solved. -/
theorem solve_returns_solved_witness :
    isFull 0 (boardOfSymbols fullList) = true ∧
    isValidBoard 0 (boardOfSymbols fullList) = true ∧
    isSolvedBoard (boardOfSymbols fullList) = true :=
  solve_returns_solved bFull (boardOfSymbols fullList) (by decide)

/-! ### The string interface of the SudokuBoard class -/

theorem writeSymbols_at {c0 : Pos → Char} {v : List Char} (h81 : v.length = 81)
    {i : Nat} (hi : i < 81) : writeSymbols c0 v (posOfIdx i) = v.getD i '.' := by
  rw [writeSymbols, idxOfPos_posOfIdx hi, if_pos (by omega)]

/-- C6: serialization round-trips exactly.  For any string of 81 valid
symbol characters that the validation accepts (or with strict mode off),
constructing a SudokuBoard from it raises nothing, reading the symbols
property back yields exactly the input, and character i of the input is
stored at the space (i mod 9, i div 9). -/
theorem symbols_roundtrip (v : List Char) (st : Bool) (h81 : v.length = 81)
    (hv : v.all validSymbolChar = true)
    (hok : st = false ∨ isValidBoard '.' (writeSymbols clearCells v) = true) :
    (mkSudokuBoard v st).2 = false ∧
    symbolsGet (mkSudokuBoard v st).1.cells = v ∧
    (∀ i, i < 81 →
      (mkSudokuBoard v st).1.cells (posOfIdx i) = v.getD i '.') := by
  have hres : mkSudokuBoard v st =
      ({ cells := writeSymbols clearCells v, strict := st }, false) := by
    rw [mkSudokuBoard, symbolsSetRun]
    rw [if_neg (fun hne => hne h81)]
    rw [if_neg (by simp [hv])]
    rcases hok with hf | hvld
    · rw [if_neg (by simp [hf])]
    · rw [if_neg (by simp [hvld])]
  refine ⟨by rw [hres], ?_, ?_⟩
  · rw [hres]
    refine List.ext_getElem (by simp [symbolsGet, h81]) ?_
    intro i h1 h2
    have hi81 : i < 81 := by simpa [symbolsGet] using h1
    simp only [symbolsGet]
    rw [List.getElem_map, List.getElem_range]
    show writeSymbols clearCells v (posOfIdx i) = v[i]
    rw [writeSymbols_at h81 hi81]
    rw [List.getD_eq_getElem?_getD, List.getElem?_eq_getElem h2]
    rfl
  · intro i hi
    rw [hres]
    exact writeSymbols_at h81 hi

/-- C6 witness: the all-empty 81-character string round-trips through a
strict board. -/
theorem symbols_roundtrip_witness :
    (mkSudokuBoard (List.replicate 81 '.') true).2 = false ∧
    symbolsGet (mkSudokuBoard (List.replicate 81 '.') true).1.cells =
      List.replicate 81 '.' ∧
    (∀ i, i < 81 →
      (mkSudokuBoard (List.replicate 81 '.') true).1.cells (posOfIdx i) =
        (List.replicate 81 '.').getD i '.') :=
  symbols_roundtrip (List.replicate 81 '.') true (by decide) (by decide)
    (Or.inr (by decide))

/-- C7: on a strict board, an in-range single-space assignment whose
result would contain a duplicated non-empty symbol in some row, column or
box raises a SudokuBoardException and leaves every space of the board
exactly as it was before the call. -/
theorem setitem_strict_rejects (bd : SBoard) (x y : Nat) (v : Char)
    (hstrict : bd.strict = true) (hx : x < 9) (hy : y < 9)
    (hv : validSymbolChar v = true)
    (hbad : isValidBoard '.' (Function.update bd.cells (toPos x y) v) = false) :
    setItemRun bd x y v = (bd, true) := by
  obtain ⟨cells, strict⟩ := bd
  simp only at hstrict hbad
  subst hstrict
  rw [setItemRun]
  rw [if_neg (by simp [hv])]
  rw [if_neg (by omega)]
  rw [if_neg (by omega)]
  simp only
  rw [if_pos (by simp [hbad])]
  have hcells : Function.update (Function.update cells (toPos x y) v) (toPos x y)
      (cells (toPos x y)) = cells := by
    rw [Function.update_idem]
    exact Function.update_eq_self _ _
  rw [hcells]

/-- C7 witness: on the strict board with a 1 at (0,0), assigning 1 to
(1,0) raises and leaves the board unchanged. -/
theorem setitem_strict_rejects_witness :
    setItemRun sbOne 1 0 '1' = (sbOne, true) :=
  setitem_strict_rejects sbOne 1 0 '1' (by rfl) (by omega) (by omega)
    (by decide) (by decide)

/-- C10: when the symbols setter receives a well-formed string of 81 valid
symbols that produces an invalid board while strict mode is enabled, it
does not restore the board's previous contents: it clears all 81 spaces to
EMPTY_SPACE and then raises, so the prior state is lost (unlike
single-space assignment, which restores the old value). -/
theorem symbols_setter_clears (bd : SBoard) (v : List Char) (h81 : v.length = 81)
    (hv : v.all validSymbolChar = true) (hstrict : bd.strict = true)
    (hbad : isValidBoard '.' (writeSymbols bd.cells v) = false) :
    symbolsSetRun bd v = ({ cells := clearCells, strict := true }, true) := by
  obtain ⟨cells, strict⟩ := bd
  simp only at hstrict hbad
  subst hstrict
  rw [symbolsSetRun]
  rw [if_neg (fun hne => hne h81)]
  rw [if_neg (by simp [hv])]
  rw [if_pos (by simp [hbad])]

/-- C10 witness: writing a symbols string with a duplicated 1 in row 0 to
a strict board clears it and raises. -/
theorem symbols_setter_clears_witness :
    symbolsSetRun sbEmpty vDup = ({ cells := clearCells, strict := true }, true) :=
  symbols_setter_clears sbEmpty vDup (by decide) (by decide) (by rfl)
    (by decide)

end BasicSudoku
